import Mathlib

/-!
Verification of the V2 inference engine (automatic containerized-environment
discovery) against its natural-language specification.

The development shallowly embeds the JavaScript sources:

* `src/systems/pip/strategy.js` — pip adapter and Python language strategy
  (name normalization, `firstExecutionException`);
* `src/systems/apt/strategy.js` — apt adapter (`sortPackageVersions`);
* `src/unnamed` version utilities (`coerceSemver`) and semver mutators
  (`decrement_semver_major`, `decrement_semver_minor`, `undo`);
* the mutation search module (`spreadFirstN`, `IDDFS`,
  `versionMatrixMutations`);
* the inference driver's validation pump (`V2.infer`).

External effects (package-repository lookups, the graph database, sandbox
subprocesses, wall-clock reads) are modelled by passing their results as
explicit parameters.  Machine arithmetic is not involved: the JS code uses
only small non-negative integers (line numbers, counters, version
components), embedded as `Nat`.

Version strings are modelled on the dotted-numeric fragment: `coerceSemver`
parses `"a"`, `"a.b"`, `"a.b.c"` (numeric components) to a triple exactly as
the JS `versionUtils.coerceSemver` does on those strings, and returns `none`
on anything else (where the JS may additionally coerce exotic strings or
carry prerelease tags; such strings are outside the model and every theorem
below quantifies only over strings the model parses).
-/

/-- A parsed semantic version.  Models the `semver.SemVer` triple produced by
`versionUtils.coerceSemver` for dotted-numeric version strings (the code
under verification never lets a prerelease tag influence the claims proved
here). -/
structure SemVer where
  major : Nat
  minor : Nat
  patch : Nat
deriving DecidableEq, Repr

/-- Lexicographic strict order on version triples: models `semver.compare
< 0` (node-semver compares major, then minor, then patch; prerelease-free). -/
def semverLt (a b : SemVer) : Bool :=
  a.major < b.major ∨
    (a.major = b.major ∧ (a.minor < b.minor ∨ (a.minor = b.minor ∧ a.patch < b.patch)))

/-- Lexicographic order on version triples: models `semver.compare ≤ 0`. -/
def semverLe (a b : SemVer) : Bool :=
  a.major < b.major ∨
    (a.major = b.major ∧ (a.minor < b.minor ∨ (a.minor = b.minor ∧ a.patch ≤ b.patch)))

/-- Split a character list at the dots, keeping empty components (the
behaviour of splitting a string on the separator `"."`). -/
def splitOnDots (acc : List Char) : List Char → List (List Char)
  | [] => [acc.reverse]
  | c :: cs => if c = '.' then acc.reverse :: splitOnDots [] cs else splitOnDots (c :: acc) cs

/-- Parse a non-empty all-decimal-digit character list as a `Nat`
accumulating left to right; any other list fails. -/
def parseDecimalAux (acc : Nat) : List Char → Option Nat
  | [] => some acc
  | c :: cs => if c.isDigit then parseDecimalAux (acc * 10 + (c.toNat - 48)) cs else none

/-- Parse a decimal numeral (at least one digit). -/
def parseDecimal : List Char → Option Nat
  | [] => none
  | c :: cs => parseDecimalAux 0 (c :: cs)

/-- `versionUtils.coerceSemver` (module `version-utils`), restricted to the
dotted-numeric fragment: one to three dot-separated decimal components parse
to a triple (missing components default to `0`, matching `semver.coerce`);
every other string is out of the modelled domain and maps to `none` (the JS
returns `null` for non-coercible strings). -/
def coerceSemver (s : String) : Option SemVer :=
  match (splitOnDots [] s.toList).mapM parseDecimal with
  | some [a] => some ⟨a, 0, 0⟩
  | some [a, b] => some ⟨a, b, 0⟩
  | some [a, b, c] => some ⟨a, b, c⟩
  | _ => none

/-- The canonical rendering of a parsed version: models the `.version`
property of a `semver.SemVer` object (prerelease-free). -/
def renderSemVer (v : SemVer) : String :=
  toString v.major ++ "." ++ toString v.minor ++ "." ++ toString v.patch

/-- Replace the first underscore of a character list with a dash.  Models the
JS `String.prototype.replace` with the string pattern `'_'`, which replaces
only the first occurrence. -/
def replaceFirstUnderscore : List Char → List Char
  | [] => []
  | c :: cs => if c = '_' then '-' :: cs else c :: replaceFirstUnderscore cs

/-- `PIPStrategy.normalizePackageName` (src/src/systems/pip/strategy.js,
lines 201-205): `pkg.toLowerCase().replace('_', '-')`. -/
def normalizePackageName (pkg : String) : String :=
  ⟨replaceFirstUnderscore ((pkg.toList).map Char.toLower)⟩

/-- C7: the pip adapter's name normalization is NOT idempotent: JS `replace`
with a string pattern rewrites only the first underscore, so a second
application keeps folding separators.  Concrete failing input `"a_b_c"`. -/
theorem normalizePackageName_not_idempotent :
    normalizePackageName (normalizePackageName "a_b_c") ≠
      normalizePackageName "a_b_c" ∧
    normalizePackageName "a_b_c" = "a-b_c" ∧
    normalizePackageName (normalizePackageName "a_b_c") = "a-b-c" := by
  decide

/-- One entry of `execution.exception_stack`.  The JS record is the list
`[filename, lineno, name, line]` of a Python `FrameSummary`; index `[1]` is
the line number (`none` models a missing/undefined entry). -/
structure Frame where
  filename : String
  lineno : Option Nat
  frameName : String
  srcLine : Option String
deriving DecidableEq, Repr

/-- The `execution` part of a validation record (§3 of the spec): status
code, exception attributes and the stack trace. -/
structure Execution where
  status_code : String
  exception_name : String
  exception_line : Option String
  exception_stack : List Frame
deriving DecidableEq, Repr

/-- A validation record.  `execution` is `none` when the sandbox reported no
execution information (`_.get` on a missing path yields `undefined`). -/
structure Validation where
  status_code : String
  execution : Option Execution
deriving DecidableEq, Repr

/-- `_.get(v, 'execution.exception_stack[0][1]')`: the line number of the
first (outermost) stack frame, or `none` if any step of the path is
missing. -/
def firstFrameLine (v : Validation) : Option Nat :=
  v.execution.bind fun e => e.exception_stack.head?.bind fun f => f.lineno

/-- Which of the two compared validations saw its exception first; `neither`
models the JS `null` sentinel. -/
inductive FirstException where
  | fromV1
  | fromV2
  | neither
deriving DecidableEq, Repr

/-- `PythonStrategy.firstExecutionException` (src/src/systems/pip/strategy.js,
lines 429-454).  Extracts `execution.exception_stack[0][1]` from both
validations; returns `none` when either is undefined (the JS throws
`Error('Unable to parse a line number from validation execution.')`);
otherwise the validation with the strictly smaller line number wins and a
tie yields the `null` sentinel. -/
def firstExecutionException (v1 v2 : Validation) : Option FirstException :=
  match firstFrameLine v1, firstFrameLine v2 with
  | some line1, some line2 =>
      some (if line1 < line2 then .fromV1 else if line2 < line1 then .fromV2 else .neither)
  | _, _ => none

/-- Modelled from the spec (§4.E), for comparison with the source: the
comparison the claim describes uses "the deepest frame whose file belongs to
the code under inference (a frame whose file path is not under the managed
third-party install prefix)"; the smaller line number wins, ties return the
sentinel.  `pre` is the managed install prefix
(`/usr/local/lib/python<version>/site-packages/`). -/
def claimedDeepestUserLine (pre : String) (v : Validation) : Option Nat :=
  ((v.execution.map Execution.exception_stack).getD []).filter
      (fun f => ¬ pre.isPrefixOf f.filename)
    |>.getLast? |>.bind Frame.lineno

/-- Modelled from the spec (§4.E): the exception-ordering comparison as the
claim states it, over the deepest non-third-party frame. -/
def claimedFirstExecutionException (pre : String) (v1 v2 : Validation) :
    Option FirstException :=
  match claimedDeepestUserLine pre v1, claimedDeepestUserLine pre v2 with
  | some line1, some line2 =>
      some (if line1 < line2 then .fromV1 else if line2 < line1 then .fromV2 else .neither)
  | _, _ => none

/-- A stack frame in the user's snippet, used by concrete inputs below. -/
def appFrame (n : Nat) : Frame :=
  ⟨"/app/snippet.py", some n, "<module>", some "import numpy"⟩

/-- A failed validation whose exception stack is the given frame list. -/
def failedValidation (stack : List Frame) : Validation :=
  ⟨"Failed", some ⟨"Failed", "AttributeError", none, stack⟩⟩

/-- C1 counterexample: the code compares the FIRST stack frame's line number
and never inspects file paths, so it disagrees with the claimed
deepest-user-frame comparison.  With `v1`'s stack at lines `[10, 5]` (deepest
user frame at line 5) and `v2`'s at `[7]`, the claim picks `v1` (5 < 7) but
the code returns `v2` (7 < 10). -/
theorem firstExecutionException_not_deepest_frame :
    firstExecutionException
        (failedValidation [appFrame 10, appFrame 5])
        (failedValidation [appFrame 7]) =
      some .fromV2 ∧
    claimedFirstExecutionException "/usr/local/lib/python3.7/site-packages/"
        (failedValidation [appFrame 10, appFrame 5])
        (failedValidation [appFrame 7]) =
      some .fromV1 ∧
    (FirstException.fromV2 ≠ FirstException.fromV1) := by
  refine ⟨by decide, by decide, by decide⟩

/-- C1 amended: `firstExecutionException` compares the line numbers of the
first (outermost, index 0) stack frames — since validation-script frames are
stripped, frame 0 is the script under validation — with no file-path
filtering; the smaller line number wins and equal line numbers return the
sentinel. -/
theorem firstExecutionException_first_frame (v1 v2 : Validation)
    (line1 line2 : Nat)
    (h1 : firstFrameLine v1 = some line1)
    (h2 : firstFrameLine v2 = some line2) :
    firstExecutionException v1 v2 =
      some (if line1 < line2 then .fromV1
            else if line2 < line1 then .fromV2 else .neither) := by
  unfold firstExecutionException
  rw [h1, h2]

/-- Witness for the amended C1 theorem at a concrete input. -/
theorem firstExecutionException_first_frame_witness :
    firstFrameLine (failedValidation [appFrame 10, appFrame 5]) = some 10 ∧
    firstFrameLine (failedValidation [appFrame 7]) = some 7 ∧
    firstExecutionException
        (failedValidation [appFrame 10, appFrame 5])
        (failedValidation [appFrame 7]) =
      some (if (10 : Nat) < 7 then .fromV1
            else if (7 : Nat) < 10 then .fromV2 else .neither) :=
  ⟨by decide, by decide,
    firstExecutionException_first_frame _ _ 10 7 (by decide) (by decide)⟩

/-- C10: when either validation lacks a line number at
`execution.exception_stack[0][1]`, `firstExecutionException` throws
(modelled as `none`) instead of returning a validation or the sentinel. -/
theorem firstExecutionException_throws_on_missing_line (v1 v2 : Validation)
    (h : firstFrameLine v1 = none ∨ firstFrameLine v2 = none) :
    firstExecutionException v1 v2 = none := by
  unfold firstExecutionException
  rcases h with h | h <;> rw [h]
  cases firstFrameLine v1 <;> rfl

/-- Witness for C10 at a concrete input: `v1` has an empty exception stack. -/
theorem firstExecutionException_throws_on_missing_line_witness :
    firstExecutionException (failedValidation []) (failedValidation [appFrame 7]) =
      none :=
  firstExecutionException_throws_on_missing_line _ _ (Or.inl (by decide))

/-- Outcome of the validation pump in `V2.infer` (src/index.js, lines
284-364): a structured timeout, a successful inference, or exhaustion of the
mutant generator. -/
inductive InferOutcome where
  | timeout (elapsed numValidations : Nat)
  | success (numValidations : Nat) (v : Validation)
  | noWorkingEnv (elapsed numValidations : Nat)
deriving DecidableEq, Repr

/-- The validation pump of `V2.infer` (src/index.js, lines 284-364).  Each
element of `iters` is one iteration of the `while (!control.done)` loop: the
wall-clock reading `_.toInteger(Date.now() / 1000)` taken at the top of the
loop, paired with the validation record the sandbox returns for the yielded
environment.  The pump first enforces the one-hour budget (`elapsed > 3600`
raises `InferenceTimeoutError(elapsed, numValidations)` — validations counted
so far, before the current one), then validates (incrementing
`numValidations`), returns on `Success`, and otherwise feeds the validation
back and advances.  An empty `iters` models generator exhaustion at time
`endTime` (`NoWorkingEnvironmentFoundError`). -/
def inferPump (start endTime : Nat) (numValidations : Nat) :
    List (Nat × Validation) → InferOutcome
  | [] => .noWorkingEnv (endTime - start) numValidations
  | (now, v) :: rest =>
      let elapsed := now - start
      if elapsed > 3600 then .timeout elapsed numValidations
      else if v.status_code = "Success" then .success (numValidations + 1) v
      else inferPump start endTime (numValidations + 1) rest

/-- C8: whenever the wall-clock time observed at the top of a pump iteration
exceeds one hour (3600 s) past the inference start, the driver raises
`InferenceTimeoutError` carrying exactly the elapsed time and the number of
validations performed so far (one per earlier iteration, none of which
succeeded or timed out). -/
theorem inferPump_timeout_aux (start endTime now : Nat) (v : Validation)
    (rest : List (Nat × Validation)) (hnow : now - start > 3600) :
    ∀ (pre : List (Nat × Validation)) (k : Nat),
      (∀ p ∈ pre, p.1 - start ≤ 3600 ∧ p.2.status_code ≠ "Success") →
      inferPump start endTime k (pre ++ (now, v) :: rest) =
        .timeout (now - start) (k + pre.length) := by
  intro pre
  induction pre with
  | nil =>
      intro k _
      simp [inferPump, hnow]
  | cons p ps ih =>
      intro k hpre
      obtain ⟨pn, pv⟩ := p
      obtain ⟨hle, hsc⟩ := hpre (pn, pv) (List.mem_cons_self _ _)
      have hps : ∀ q ∈ ps, q.1 - start ≤ 3600 ∧ q.2.status_code ≠ "Success" :=
        fun q hq => hpre q (List.mem_cons_of_mem _ hq)
      have hnle : ¬ (pn - start > 3600) := by omega
      have := ih (k + 1) hps
      simp only [List.cons_append, inferPump, hnle, if_false, hsc, ite_false] at this ⊢
      rw [show ps.append ((now, v) :: rest) = ps ++ (now, v) :: rest from rfl, this]
      congr 1
      simp [List.length_cons]
      omega

/-- C8: whenever the wall-clock time observed at the top of a pump iteration
exceeds one hour (3600 s) past the inference start, the driver raises
`InferenceTimeoutError` carrying exactly the elapsed time and the number of
validations performed so far (one per earlier iteration, none of which
succeeded or timed out). -/
theorem inferPump_timeout (start endTime now : Nat) (v : Validation)
    (pre rest : List (Nat × Validation))
    (hpre : ∀ p ∈ pre, p.1 - start ≤ 3600 ∧ p.2.status_code ≠ "Success")
    (hnow : now - start > 3600) :
    inferPump start endTime 0 (pre ++ (now, v) :: rest) =
      .timeout (now - start) pre.length := by
  simpa using inferPump_timeout_aux start endTime now v rest hnow pre 0 hpre

/-- Witness for C8 at a concrete input: two failed validations within the
budget, then an iteration observed 3601 seconds after start. -/
theorem inferPump_timeout_witness :
    inferPump 100 5000 0
        [(200, failedValidation []), (300, failedValidation []),
         (3701, failedValidation [])] =
      .timeout 3601 2 :=
  inferPump_timeout 100 5000 3701 (failedValidation [])
    [(200, failedValidation []), (300, failedValidation [])] []
    (by decide) (by decide)

/-- A dependency: `(name, version, system)` with the version an opaque
string (§3 of the spec).  The `system` field selects the package-system
adapter. -/
structure Dependency where
  name : String
  version : String
  system : String
deriving DecidableEq, Repr

/-- The `changes` part of a mutation record.  JS field names `from`/`to` are
rendered `fromVersion`/`toVersion` (`from` is reserved in Lean). -/
structure MutationChanges where
  package : String
  fromVersion : String
  toVersion : String
deriving DecidableEq, Repr

/-- The `iddfs` bookkeeping annotation attached by the IDDFS searches:
`mutation.iddfs = { index, mutatorIndex }`. -/
structure IddfsInfo where
  index : Nat
  mutatorIndex : Nat
deriving DecidableEq, Repr

/-- A mutation record `(kind, changes, bookkeeping)` (§3 of the spec); the
bookkeeping is absent until a search annotates the record. -/
structure Mutation where
  type : String
  changes : MutationChanges
  iddfs : Option IddfsInfo := none
deriving DecidableEq, Repr

/-- The result of a successful `Mutator.apply`. -/
structure MutationResult where
  mutant : Dependency
  mutation : Mutation
deriving DecidableEq, Repr

/-- `DependencySemverMutator.getSemverLookupTable`: pair every available
version with its semver coercion and drop the pairs whose coercion failed
(the JS rejects `null` coercions before `_.zipObject`).  The table is kept
as the ordered key/value list; `lookupTableGet` below reproduces
`_.zipObject`'s later-key-wins overwrite behaviour. -/
def getSemverLookupTable (avail : List String) : List (SemVer × String) :=
  avail.filterMap fun s => (coerceSemver s).map fun v => (v, s)

/-- Read `lookup[key]` from the table built by `_.zipObject`: with duplicate
keys the value zipped last wins. -/
def lookupTableGet (table : List (SemVer × String)) (key : SemVer) : Option String :=
  (table.reverse.find? fun p => p.1 = key).map Prod.snd

/-- `semver.maxSatisfying` over the table's keys: the greatest version
satisfying the range predicate, or `none` when no key satisfies it. -/
def maxSatisfying (p : SemVer → Bool) : List SemVer → Option SemVer
  | [] => none
  | k :: ks =>
      let rest := maxSatisfying p ks
      if p k then
        match rest with
        | none => some k
        | some m => some (if semverLe k m then m else k)
      else rest

/-- `DecrementSemverMajorVersion.apply` (semver mutators module, lines
120-159): coerce the current version; when its major component is positive,
pick via `semver.maxSatisfying` the greatest available version strictly
below `major.0.0` and return the clone-with-new-version mutant together with
the mutation record; otherwise produce no result.  The package repository
lookup `getAvailablePackageVersions` is passed in as `avail`. -/
def applyDecrementSemverMajor (avail : List String) (d : Dependency) :
    Option MutationResult :=
  match coerceSemver d.version with
  | none => none
  | some version =>
      if version.major > 0 then
        match maxSatisfying (fun k => semverLt k ⟨version.major, 0, 0⟩)
            ((getSemverLookupTable avail).map Prod.fst) with
        | none => none
        | some lastMajorVersion =>
            match lookupTableGet (getSemverLookupTable avail) lastMajorVersion with
            | none => none
            | some newVersion =>
                some { mutant := { d with version := newVersion },
                       mutation :=
                         { type := "decrement_semver_major",
                           changes :=
                             { package := d.name,
                               fromVersion := d.version,
                               toVersion := newVersion } } }
      else none

/-- `DecrementSemverMinorVersion.apply` (semver mutators module, lines
180-222): as for the major mutator but guarded by a positive minor
component, with the range `>=major.0.0 <major.minor.0`. -/
def applyDecrementSemverMinor (avail : List String) (d : Dependency) :
    Option MutationResult :=
  match coerceSemver d.version with
  | none => none
  | some version =>
      if version.minor > 0 then
        match maxSatisfying
            (fun k => semverLe ⟨version.major, 0, 0⟩ k &&
              semverLt k ⟨version.major, version.minor, 0⟩)
            ((getSemverLookupTable avail).map Prod.fst) with
        | none => none
        | some lastMinorVersion =>
            match lookupTableGet (getSemverLookupTable avail) lastMinorVersion with
            | none => none
            | some newVersion =>
                some { mutant := { d with version := newVersion },
                       mutation :=
                         { type := "decrement_semver_minor",
                           changes :=
                             { package := d.name,
                               fromVersion := d.version,
                               toVersion := newVersion } } }
      else none

/-- `DependencySemverMutator.undo` (semver mutators module, lines 95-99):
`_.assign(_.clone(dependency), { version: mutation.changes.from })`. -/
def undoMutation (dependency : Dependency) (mutation : Mutation) : Dependency :=
  { dependency with version := mutation.changes.fromVersion }

/-- The registered semver mutators, in precedence order
(`module.exports.versionMutators`). -/
inductive MutatorKind where
  | major
  | minor
deriving DecidableEq, Repr

/-- Dispatch `apply` for a registered mutator. -/
def applyMutator : MutatorKind → List String → Dependency → Option MutationResult
  | .major => applyDecrementSemverMajor
  | .minor => applyDecrementSemverMinor

/-- Shared shape of a successful `apply`: the mutation records the original
version as `from` and the new version as `to`, and the mutant is the
original dependency with only the version replaced. -/
theorem applyMutator_shape (k : MutatorKind) (avail : List String)
    (d : Dependency) (r : MutationResult)
    (h : applyMutator k avail d = some r) :
    r.mutation.changes.fromVersion = d.version ∧
    r.mutant = { d with version := r.mutation.changes.toVersion } ∧
    r.mutation.iddfs = none ∧
    (r.mutation.type = "decrement_semver_major" ∨
      r.mutation.type = "decrement_semver_minor") := by
  cases k <;>
    simp only [applyMutator, applyDecrementSemverMajor,
      applyDecrementSemverMinor] at h <;>
    · split at h
      · exact absurd h (by simp)
      · split at h
        · split at h
          · exact absurd h (by simp)
          · split at h
            · exact absurd h (by simp)
            · injection h with h
              subst h
              simp
        · exact absurd h (by simp)

/-- Unfolding of the boolean order `semverLe` into a proposition. -/
theorem semverLe_iff (a b : SemVer) :
    semverLe a b = true ↔
      (a.major < b.major ∨
        (a.major = b.major ∧
          (a.minor < b.minor ∨ (a.minor = b.minor ∧ a.patch ≤ b.patch)))) := by
  simp [semverLe]

/-- Unfolding of the strict boolean order `semverLt` into a proposition. -/
theorem semverLt_iff (a b : SemVer) :
    semverLt a b = true ↔
      (a.major < b.major ∨
        (a.major = b.major ∧
          (a.minor < b.minor ∨ (a.minor = b.minor ∧ a.patch < b.patch)))) := by
  simp [semverLt]

/-- The version order is total. -/
theorem semverLe_total (a b : SemVer) : semverLe a b = true ∨ semverLe b a = true := by
  rw [semverLe_iff, semverLe_iff]
  omega

/-- The version order is transitive. -/
theorem semverLe_trans {a b c : SemVer} (h1 : semverLe a b = true)
    (h2 : semverLe b c = true) : semverLe a c = true := by
  rw [semverLe_iff] at h1 h2 ⊢
  omega

/-- A successful `maxSatisfying` result is a satisfying member of the key
list. -/
theorem maxSatisfying_mem {p : SemVer → Bool} {ks : List SemVer} {m : SemVer}
    (h : maxSatisfying p ks = some m) : m ∈ ks ∧ p m = true := by
  induction ks generalizing m with
  | nil => simp [maxSatisfying] at h
  | cons k ks ih =>
      by_cases hp : p k = true
      · rcases hrest : maxSatisfying p ks with - | m'
        · simp [maxSatisfying, hp, hrest] at h
          subst h
          exact ⟨List.mem_cons_self _ _, hp⟩
        · simp only [maxSatisfying, hp, if_true, hrest] at h
          injection h with h
          obtain ⟨hm', hpm'⟩ := ih hrest
          by_cases hle : semverLe k m' = true
          · rw [if_pos hle] at h
            subst h
            exact ⟨List.mem_cons_of_mem _ hm', hpm'⟩
          · rw [if_neg hle] at h
            subst h
            exact ⟨List.mem_cons_self _ _, hp⟩
      · simp only [maxSatisfying, hp] at h
        rw [if_neg (by simp_all)] at h
        obtain ⟨hm, hpm⟩ := ih h
        exact ⟨List.mem_cons_of_mem _ hm, hpm⟩

/-- Every satisfying key is bounded by the `maxSatisfying` result. -/
theorem maxSatisfying_ge {p : SemVer → Bool} {ks : List SemVer} {k : SemVer}
    (hk : k ∈ ks) (hp : p k = true) :
    ∃ m, maxSatisfying p ks = some m ∧ semverLe k m = true := by
  induction ks with
  | nil => simp at hk
  | cons a ks ih =>
      rcases List.mem_cons.1 hk with rfl | hk'
      · rcases hrest : maxSatisfying p ks with - | m'
        · refine ⟨k, by simp [maxSatisfying, hp, hrest], ?_⟩
          rw [semverLe_iff]
          omega
        · by_cases hle : semverLe k m' = true
          · exact ⟨m', by simp [maxSatisfying, hp, hrest, hle], hle⟩
          · refine ⟨k, by simp [maxSatisfying, hp, hrest, hle], ?_⟩
            rw [semverLe_iff]
            omega
      · obtain ⟨m', hm', hkm'⟩ := ih hk'
        by_cases hpa : p a = true
        · by_cases hle : semverLe a m' = true
          · exact ⟨m', by simp [maxSatisfying, hpa, hm', hle], hkm'⟩
          · refine ⟨a, by simp [maxSatisfying, hpa, hm', hle], ?_⟩
            rcases semverLe_total a m' with h | h
            · exact absurd h hle
            · exact semverLe_trans hkm' h
        · refine ⟨m', ?_, hkm'⟩
          simp only [maxSatisfying, hpa]
          rw [if_neg (by simp_all)]
          exact hm'

/-- Every table entry pairs an available version string with its own
coercion. -/
theorem getSemverLookupTable_mem {avail : List String} {k : SemVer} {s : String}
    (h : (k, s) ∈ getSemverLookupTable avail) :
    s ∈ avail ∧ coerceSemver s = some k := by
  obtain ⟨t, ht, hmap⟩ := List.mem_filterMap.1 h
  rcases hc : coerceSemver t with - | v <;> rw [hc] at hmap
  · simp at hmap
  · simp only [Option.map_some', Option.some.injEq, Prod.mk.injEq] at hmap
    obtain ⟨rfl, rfl⟩ := hmap
    exact ⟨ht, hc⟩

/-- Every available version that coerces appears in the table under its
coercion. -/
theorem getSemverLookupTable_mem_of_avail {avail : List String} {k : SemVer}
    {s : String} (hs : s ∈ avail) (hc : coerceSemver s = some k) :
    (k, s) ∈ getSemverLookupTable avail :=
  List.mem_filterMap.2 ⟨s, hs, by rw [hc]; rfl⟩

/-- A successful table read returns the value of an entry with the requested
key. -/
theorem lookupTableGet_mem {table : List (SemVer × String)} {key : SemVer}
    {s : String} (h : lookupTableGet table key = some s) :
    (key, s) ∈ table := by
  unfold lookupTableGet at h
  rcases hf : table.reverse.find? (fun p => p.1 = key) with - | p <;> rw [hf] at h
  · simp at h
  · simp only [Option.map_some', Option.some.injEq] at h
    have hmem := List.mem_reverse.1 (List.mem_of_find?_eq_some hf)
    have hkey := List.find?_some hf
    simp only [decide_eq_true_eq] at hkey
    obtain ⟨p1, p2⟩ := p
    cases hkey
    cases h
    exact hmem

/-- Every key present in the table is readable. -/
theorem lookupTableGet_isSome {table : List (SemVer × String)} {key : SemVer}
    {s : String} (h : (key, s) ∈ table) :
    ∃ t, lookupTableGet table key = some t := by
  have hsome : (table.reverse.find? (fun p => p.1 = key)).isSome :=
    List.find?_isSome.2 ⟨(key, s), List.mem_reverse.2 h, by simp⟩
  obtain ⟨p, hp⟩ := Option.isSome_iff_exists.1 hsome
  exact ⟨p.2, by unfold lookupTableGet; rw [hp]; rfl⟩

/-- C2: undo is exact for both registered semver mutators: if `apply`
succeeds, `undo` applied to the mutant and the recorded mutation returns the
original dependency byte for byte (the version is restored from
`mutation.changes.from` and no other field changes). -/
theorem mutator_undo_exact (k : MutatorKind) (avail : List String)
    (d : Dependency) (r : MutationResult)
    (h : applyMutator k avail d = some r) :
    undoMutation r.mutant r.mutation = d := by
  obtain ⟨hfrom, hmut, -, -⟩ := applyMutator_shape k avail d r h
  rw [undoMutation, hmut, hfrom]

/-- Witness for C2 at a concrete input: decrementing the major version of
`2.0.0` with `1.0.0` available, then undoing, restores the dependency. -/
theorem mutator_undo_exact_witness :
    applyMutator .major ["1.0.0", "2.0.0"] ⟨"lib", "2.0.0", "pip"⟩ =
      some { mutant := ⟨"lib", "1.0.0", "pip"⟩,
             mutation :=
               { type := "decrement_semver_major",
                 changes :=
                   { package := "lib", fromVersion := "2.0.0",
                     toVersion := "1.0.0" } } } ∧
    undoMutation ⟨"lib", "1.0.0", "pip"⟩
        { type := "decrement_semver_major",
          changes :=
            { package := "lib", fromVersion := "2.0.0",
              toVersion := "1.0.0" } } =
      ⟨"lib", "2.0.0", "pip"⟩ :=
  ⟨by decide,
    mutator_undo_exact .major ["1.0.0", "2.0.0"] ⟨"lib", "2.0.0", "pip"⟩
      { mutant := ⟨"lib", "1.0.0", "pip"⟩,
        mutation :=
          { type := "decrement_semver_major",
            changes :=
              { package := "lib", fromVersion := "2.0.0",
                toVersion := "1.0.0" } } }
      (by decide)⟩

/-- The semver range `>=M.0.0 <M.m.0` used by the minor mutator is exactly
"same major component and strictly below `M.m.0`". -/
theorem semver_minor_range (M m : Nat) (k : SemVer) :
    ((semverLe ⟨M, 0, 0⟩ k && semverLt k ⟨M, m, 0⟩) = true) ↔
      (k.major = M ∧ semverLt k ⟨M, m, 0⟩ = true) := by
  simp only [Bool.and_eq_true, semverLe_iff, semverLt_iff]
  omega

/-- C6: `decrement_semver_minor.apply` picks as the new pinned version the
newest available version whose major component equals the current one and
which is strictly below `major.minor.0` in the adapter's order, and it
produces no result when the current minor component is 0 or when no such
candidate exists.  Version strings are compared through their coercions
(ties between distinct strings coercing to the same triple are broken by
`_.zipObject`'s later-key-wins overwrite). -/
theorem decrement_minor_chooses_newest (avail : List String) (d : Dependency)
    (cur : SemVer) (hv : coerceSemver d.version = some cur) :
    (cur.minor = 0 → applyDecrementSemverMinor avail d = none) ∧
    (∀ r, applyDecrementSemverMinor avail d = some r →
      r.mutant.version ∈ avail ∧
      ∃ k, coerceSemver r.mutant.version = some k ∧
        k.major = cur.major ∧
        semverLt k ⟨cur.major, cur.minor, 0⟩ = true ∧
        ∀ s ∈ avail, ∀ k', coerceSemver s = some k' → k'.major = cur.major →
          semverLt k' ⟨cur.major, cur.minor, 0⟩ = true → semverLe k' k = true) ∧
    ((∀ s ∈ avail, ∀ k', coerceSemver s = some k' →
        ¬(k'.major = cur.major ∧ semverLt k' ⟨cur.major, cur.minor, 0⟩ = true)) →
      applyDecrementSemverMinor avail d = none) := by
  refine ⟨?_, ?_, ?_⟩
  · intro hm0
    simp only [applyDecrementSemverMinor, hv]
    rw [if_neg (by omega)]
  · intro r h
    simp only [applyDecrementSemverMinor, hv] at h
    by_cases hm : cur.minor > 0
    · rw [if_pos hm] at h
      rcases hmax : maxSatisfying
          (fun k => semverLe ⟨cur.major, 0, 0⟩ k &&
            semverLt k ⟨cur.major, cur.minor, 0⟩)
          ((getSemverLookupTable avail).map Prod.fst) with - | kmax
      · simp only [hmax] at h
        exact Option.noConfusion h
      simp only [hmax] at h
      rcases hlook : lookupTableGet (getSemverLookupTable avail) kmax with - | newV
      · simp only [hlook] at h
        exact Option.noConfusion h
      simp only [hlook, Option.some.injEq] at h
      subst h
      obtain ⟨hkmem, hkpred⟩ := maxSatisfying_mem hmax
      obtain ⟨hmaj, hlt⟩ := (semver_minor_range _ _ _).1 hkpred
      obtain ⟨hnewAvail, hnewCoerce⟩ :=
        getSemverLookupTable_mem (lookupTableGet_mem hlook)
      refine ⟨hnewAvail, kmax, hnewCoerce, hmaj, hlt, ?_⟩
      intro s hs k' hk' hk'maj hk'lt
      have hk'mem : k' ∈ (getSemverLookupTable avail).map Prod.fst :=
        List.mem_map.2 ⟨(k', s), getSemverLookupTable_mem_of_avail hs hk', rfl⟩
      have hk'pred := (semver_minor_range cur.major cur.minor k').2 ⟨hk'maj, hk'lt⟩
      obtain ⟨m', hm', hle⟩ := maxSatisfying_ge
        (p := fun k => semverLe ⟨cur.major, 0, 0⟩ k &&
          semverLt k ⟨cur.major, cur.minor, 0⟩) hk'mem hk'pred
      rw [hmax] at hm'
      injection hm' with hm'
      rwa [← hm'] at hle
    · rw [if_neg hm] at h
      cases h
  · intro hnone
    by_cases hm : cur.minor > 0
    · simp only [applyDecrementSemverMinor, hv]
      rw [if_pos hm]
      rcases hmax : maxSatisfying
          (fun k => semverLe ⟨cur.major, 0, 0⟩ k &&
            semverLt k ⟨cur.major, cur.minor, 0⟩)
          ((getSemverLookupTable avail).map Prod.fst) with - | kmax
      · rfl
      · obtain ⟨hkmem, hkpred⟩ := maxSatisfying_mem hmax
        obtain ⟨⟨k2, s2⟩, hent, hfst⟩ := List.mem_map.1 hkmem
        obtain ⟨hs2, hc2⟩ := getSemverLookupTable_mem hent
        cases hfst
        exact absurd ((semver_minor_range _ _ _).1 hkpred) (hnone s2 hs2 _ hc2)
    · simp only [applyDecrementSemverMinor, hv]
      rw [if_neg hm]

/-- Witness for C6 at a concrete input: with `1.0.0`, `1.1.0`, `1.2.0` and
`2.0.0` available, decrementing the minor version of `1.2.0` picks `1.1.0`. -/
theorem decrement_minor_chooses_newest_witness :
    (MutationResult.mutant
        { mutant := ⟨"lib", "1.1.0", "pip"⟩,
          mutation :=
            { type := "decrement_semver_minor",
              changes :=
                { package := "lib", fromVersion := "1.2.0",
                  toVersion := "1.1.0" } } }).version ∈
        ["1.0.0", "1.1.0", "1.2.0", "2.0.0"] ∧
    ∃ k, coerceSemver "1.1.0" = some k ∧
      k.major = 1 ∧
      semverLt k ⟨1, 2, 0⟩ = true ∧
      ∀ s ∈ ["1.0.0", "1.1.0", "1.2.0", "2.0.0"], ∀ k',
        coerceSemver s = some k' → k'.major = 1 →
        semverLt k' ⟨1, 2, 0⟩ = true → semverLe k' k = true :=
  (decrement_minor_chooses_newest ["1.0.0", "1.1.0", "1.2.0", "2.0.0"]
      ⟨"lib", "1.2.0", "pip"⟩ ⟨1, 2, 0⟩ (by decide)).2.1
    { mutant := ⟨"lib", "1.1.0", "pip"⟩,
      mutation :=
        { type := "decrement_semver_minor",
          changes :=
            { package := "lib", fromVersion := "1.2.0",
              toVersion := "1.1.0" } } }
    (by decide)

/-- Insert a version into a sorted list, keeping earlier elements first on
ties (the stable behaviour of the JS engine's `Array.prototype.sort`). -/
def orderedInsertVer (le : SemVer → SemVer → Bool) (a : SemVer) :
    List SemVer → List SemVer
  | [] => [a]
  | b :: l => if le a b then a :: b :: l else b :: orderedInsertVer le a l

/-- Stable comparison sort: models `Array.prototype.sort(comp)` with the
comparator derived from `semver.compare`. -/
def insertionSortVer (le : SemVer → SemVer → Bool) : List SemVer → List SemVer
  | [] => []
  | a :: l => orderedInsertVer le a (insertionSortVer le l)

/-- Inserting permutes consing. -/
theorem orderedInsertVer_perm (le : SemVer → SemVer → Bool) (a : SemVer)
    (l : List SemVer) : (orderedInsertVer le a l).Perm (a :: l) := by
  induction l with
  | nil => exact List.Perm.refl _
  | cons b l ih =>
      by_cases h : le a b = true
      · rw [orderedInsertVer, if_pos h]
      · rw [orderedInsertVer, if_neg h]
        exact (ih.cons b).trans (List.Perm.swap a b l)

/-- The sort is a permutation of its input. -/
theorem insertionSortVer_perm (le : SemVer → SemVer → Bool) (l : List SemVer) :
    (insertionSortVer le l).Perm l := by
  induction l with
  | nil => exact List.Perm.refl _
  | cons a l ih =>
      exact (orderedInsertVer_perm le a (insertionSortVer le l)).trans (ih.cons a)

/-- Inserting into a sorted list keeps it sorted, given a total transitive
comparison. -/
theorem orderedInsertVer_pairwise (le : SemVer → SemVer → Bool)
    (htot : ∀ x y, le x y = true ∨ le y x = true)
    (htrans : ∀ x y z, le x y = true → le y z = true → le x z = true)
    (a : SemVer) (l : List SemVer)
    (hl : l.Pairwise (fun x y => le x y = true)) :
    (orderedInsertVer le a l).Pairwise (fun x y => le x y = true) := by
  induction l with
  | nil => simp [orderedInsertVer]
  | cons b l ih =>
      obtain ⟨hb, hl'⟩ := List.pairwise_cons.1 hl
      by_cases h : le a b = true
      · rw [orderedInsertVer, if_pos h]
        refine List.pairwise_cons.2 ⟨?_, hl⟩
        intro x hx
        rcases List.mem_cons.1 hx with rfl | hx'
        · exact h
        · exact htrans a b x h (hb x hx')
      · rw [orderedInsertVer, if_neg h]
        refine List.pairwise_cons.2 ⟨?_, ih hl'⟩
        intro x hx
        rcases List.mem_cons.1 ((orderedInsertVer_perm le a l).mem_iff.1 hx) with
          rfl | hx'
        · rcases htot x b with h' | h'
          · exact absurd h' h
          · exact h'
        · exact hb x hx'

/-- The sort is sorted, given a total transitive comparison. -/
theorem insertionSortVer_pairwise (le : SemVer → SemVer → Bool)
    (htot : ∀ x y, le x y = true ∨ le y x = true)
    (htrans : ∀ x y z, le x y = true → le y z = true → le x z = true)
    (l : List SemVer) :
    (insertionSortVer le l).Pairwise (fun x y => le x y = true) := by
  induction l with
  | nil => simp [insertionSortVer]
  | cons a l ih => exact orderedInsertVer_pairwise le htot htrans a _ ih

/-- The direction-dependent comparison of `APTStrategy.sortPackageVersions`
(`ascending ? (a, b) => a.compare(b) : (a, b) => -a.compare(b)`). -/
def directedLe (ascending : Bool) (a b : SemVer) : Bool :=
  if ascending then semverLe a b else semverLe b a

/-- The directed comparison is total. -/
theorem directedLe_total (ascending : Bool) (x y : SemVer) :
    directedLe ascending x y = true ∨ directedLe ascending y x = true := by
  cases ascending
  · simpa [directedLe] using semverLe_total y x
  · simpa [directedLe] using semverLe_total x y

/-- The directed comparison is transitive. -/
theorem directedLe_trans (ascending : Bool) (x y z : SemVer)
    (h1 : directedLe ascending x y = true) (h2 : directedLe ascending y z = true) :
    directedLe ascending x z = true := by
  cases ascending <;> simp only [directedLe, if_true, if_false, Bool.false_eq_true,
    ite_true, ite_false] at h1 h2 ⊢
  · exact semverLe_trans h2 h1
  · exact semverLe_trans h1 h2

/-- `APTStrategy.sortPackageVersions` (src/src/systems/apt/strategy.js,
lines 97-115): coerce every version and the cutoff to semver; sort with the
direction-dependent comparator; when the cutoff coerced, keep only versions
`≥ cutoff` (ascending) or `≤ cutoff` (descending); return the canonical
`.version` renderings.  A list containing a non-coercible version makes the
JS comparator or filter throw on `null` (modelled as `none`); a
non-coercible cutoff is `null`, which skips the filter. -/
def aptSortPackageVersions (versions : List String) (ascending : Bool)
    (cutoff : String) : Option (List String) :=
  match versions.mapM coerceSemver with
  | none => none
  | some parsed =>
      match coerceSemver cutoff with
      | some c =>
          some (((insertionSortVer (directedLe ascending) parsed).filter
            (fun v => if ascending then semverLe c v else semverLe v c)).map
              renderSemVer)
      | none => some ((insertionSortVer (directedLe ascending) parsed).map renderSemVer)

/-- Modelled from the spec (P3), for comparison with the source: the subset
`{v ∈ vs | v ≥ c}` (ascending; `v ≤ c` descending) of the input version
strings themselves, compared through the adapter's coercion. -/
def claimedVersionSubset (vs : List String) (ascending : Bool) (c : String) :
    List String :=
  vs.filter fun v =>
    match coerceSemver v, coerceSemver c with
    | some kv, some kc => if ascending then semverLe kc kv else semverLe kv kc
    | _, _ => false

/-- C5 counterexample: `sortPackageVersions` returns the canonical renderings
of the coerced versions, not the input strings: on input `["1.0"]` with
ascending order and cutoff `"0.1.0"` it returns `["1.0.0"]`, which is not a
permutation of the qualifying input subset `["1.0"]`. -/
theorem aptSortPackageVersions_not_input_permutation :
    aptSortPackageVersions ["1.0"] true "0.1.0" = some ["1.0.0"] ∧
    claimedVersionSubset ["1.0"] true "0.1.0" = ["1.0"] ∧
    ¬ List.Perm ["1.0.0"] ["1.0"] := by
  refine ⟨by decide, by decide, ?_⟩
  intro h
  have hm : ("1.0.0" : String) ∈ ["1.0"] := h.mem_iff.1 (List.mem_cons_self _ _)
  simp at hm

/-- C5 amended: on coercible inputs and cutoff, `sortPackageVersions`
returns the canonical renderings of a list of versions that is a permutation
of the cutoff-qualifying coerced input versions and is monotone
(non-decreasing ascending, non-increasing descending) under the adapter's
order. -/
theorem aptSortPackageVersions_sorted_perm (versions : List String)
    (ascending : Bool) (cutoff : String) (parsed : List SemVer) (c : SemVer)
    (hp : versions.mapM coerceSemver = some parsed)
    (hc : coerceSemver cutoff = some c) :
    ∃ ts : List SemVer,
      aptSortPackageVersions versions ascending cutoff =
        some (ts.map renderSemVer) ∧
      ts.Perm (parsed.filter
        (fun v => if ascending then semverLe c v else semverLe v c)) ∧
      ts.Pairwise (fun a b => directedLe ascending a b = true) := by
  refine ⟨(insertionSortVer (directedLe ascending) parsed).filter
    (fun v => if ascending then semverLe c v else semverLe v c), ?_, ?_, ?_⟩
  · unfold aptSortPackageVersions
    rw [hp, hc]
  · exact (insertionSortVer_perm (directedLe ascending) parsed).filter _
  · exact (insertionSortVer_pairwise (directedLe ascending)
      (directedLe_total ascending) (directedLe_trans ascending) parsed).sublist
      (List.filter_sublist _)

/-- Witness for the amended C5 theorem at a concrete input. -/
theorem aptSortPackageVersions_sorted_perm_witness :
    ∃ ts : List SemVer,
      aptSortPackageVersions ["1.0.0", "0.2.0", "2.0.0"] true "0.3.0" =
        some (ts.map renderSemVer) ∧
      ts.Perm ([⟨1, 0, 0⟩, ⟨0, 2, 0⟩, ⟨2, 0, 0⟩].filter
        (fun v => if true then semverLe ⟨0, 3, 0⟩ v else semverLe v ⟨0, 3, 0⟩)) ∧
      ts.Pairwise (fun a b => directedLe true a b = true) :=
  aptSortPackageVersions_sorted_perm ["1.0.0", "0.2.0", "2.0.0"] true "0.3.0"
    [⟨1, 0, 0⟩, ⟨0, 2, 0⟩, ⟨2, 0, 0⟩] ⟨0, 3, 0⟩ (by decide) (by decide)

/-- Write `lookup[key] = value` on a JS object modelled as an ordered
association list: an existing key keeps its position and is overwritten, a
new key is appended (string keys such as `"1.5.0"` are not array indices, so
JS preserves insertion order). -/
def objUpsert (l : List (String × List String)) (key : String)
    (value : List String) : List (String × List String) :=
  if l.any (fun p => p.1 = key) then
    l.map fun p => if p.1 = key then (key, value) else p
  else l ++ [(key, value)]

/-- Build the `v1 → [v2…]` lookup dictionary of `versionMatrixMutations`
from the `BREAKING_UPGRADES` query records. -/
def buildLookup (records : List (String × List String)) :
    List (String × List String) :=
  records.foldl (fun acc r => objUpsert acc r.1 r.2) []

/-- One step of the inner `_.each(lookup[to_version], ...)` loop of
`versionMatrixMutations`: clone the threaded mutant, record the mutation
`from = mutant.version, to = from_version`, advance the mutant, append, and
add `from_version` to the encountered set. -/
def matrixEmitOne (name : String)
    (st : List String × Dependency × List MutationResult)
    (from_version : String) : List String × Dependency × List MutationResult :=
  let enc := st.1
  let mutant := st.2.1
  let muts := st.2.2
  let mutation : Mutation :=
    { type := "version_matrix_from_version",
      changes :=
        { package := name, fromVersion := mutant.version,
          toVersion := from_version } }
  let mutant2 := { mutant with version := from_version }
  (if from_version ∈ enc then enc else from_version :: enc, mutant2,
    muts ++ [{ mutant := mutant2, mutation := mutation }])

/-- One step of the outer `_.each(sortedVersions, ...)` loop: the
`encountered` guard only adds `to_version` to the set — it does not skip the
neighbour emission — then every neighbour is emitted. -/
def matrixEmitKey (d : Dependency) (lookup : List (String × List String))
    (st : List String × Dependency × List MutationResult)
    (to_version : String) : List String × Dependency × List MutationResult :=
  let enc :=
    if to_version ≠ d.version ∧ ¬ to_version ∈ st.1 then to_version :: st.1
    else st.1
  let neighbors := (((lookup.find? fun p => p.1 = to_version).map Prod.snd).getD [])
  neighbors.foldl (matrixEmitOne d.name) (enc, st.2.1, st.2.2)

/-- `versionMatrixMutations` (mutation module, lines 406-508), on the branch
where the dependency has upgrade data: `records` is the
`BREAKING_UPGRADES` query result (the `v1` version paired with its `v2`
versions, already ordered by decreasing `percent_broken`).  Build the
lookup, sort its keys descending with the current version as cutoff through
the apt adapter, then emit one `version_matrix_from_version` mutation per
`(key, neighbour)` pair, threading the mutant forward.  `none` models a
crash inside the adapter's sort (non-coercible keys or current version). -/
def versionMatrixMutations (d : Dependency)
    (records : List (String × List String)) : Option (List MutationResult) :=
  if records.isEmpty then some []
  else
    match aptSortPackageVersions ((buildLookup records).map Prod.fst) false
        d.version with
    | none => none
    | some sortedVersions =>
        some (sortedVersions.foldl (matrixEmitKey d (buildLookup records))
          ([], d, [])).2.2

/-- C4: the planner does NOT skip versions already encountered: the
`encountered` set is populated but never consulted before emitting, so two
different matrix keys whose neighbour lists share a version yield two
mutations with the same `to` version (the second here even has
`from = to = "1.0.0"`). -/
theorem versionMatrixMutations_duplicate_to :
    versionMatrixMutations ⟨"libfoo", "3.0.0", "apt"⟩
        [("2.0.0", ["1.0.0"]), ("1.5.0", ["1.0.0"])] =
      some
        [{ mutant := ⟨"libfoo", "1.0.0", "apt"⟩,
           mutation :=
             { type := "version_matrix_from_version",
               changes :=
                 { package := "libfoo", fromVersion := "3.0.0",
                   toVersion := "1.0.0" } } },
         { mutant := ⟨"libfoo", "1.0.0", "apt"⟩,
           mutation :=
             { type := "version_matrix_from_version",
               changes :=
                 { package := "libfoo", fromVersion := "1.0.0",
                   toVersion := "1.0.0" } } }] := by
  decide

/-- Fuel-driven round-robin scheduler modelling the `while (generators.length)`
loop of `spreadFirstN` (mutation module, lines 97-120): shift the front
generator; a finished one is dropped (implicit pruning), otherwise it yields
once and is pushed back on the tail.  Each per-root coroutine is abstracted
by the number of environments it will yield — the wrapper treats generators
opaquely, only checking `control.done` — so queue entries are
`(root index, remaining yields)` and the stream records which root yielded. -/
def rrStreamAux : Nat → List (Nat × Nat) → List Nat
  | 0, _ => []
  | _ + 1, [] => []
  | fuel + 1, (_, 0) :: q => rrStreamAux fuel q
  | fuel + 1, (i, r + 1) :: q => i :: rrStreamAux fuel (q ++ [(i, r)])

/-- Fuel sufficient to drain a queue: total remaining yields plus one drop
per generator. -/
def queueMeasure (q : List (Nat × Nat)) : Nat := (q.map Prod.snd).sum + q.length

/-- The complete yield stream of the spreading wrapper. -/
def rrStream (q : List (Nat × Nat)) : List Nat := rrStreamAux (queueMeasure q) q

/-- Measure of a cons cell. -/
theorem queueMeasure_cons (a r : Nat) (q : List (Nat × Nat)) :
    queueMeasure ((a, r) :: q) = r + queueMeasure q + 1 := by
  simp [queueMeasure]
  omega

/-- Measure after requeueing at the tail. -/
theorem queueMeasure_append_single (q : List (Nat × Nat)) (a r : Nat) :
    queueMeasure (q ++ [(a, r)]) = queueMeasure q + r + 1 := by
  simp [queueMeasure]
  omega

/-- Round-robin invariant: take any prefix of the yield stream of a queue
with distinct root ids.  For roots `i` (queued before `j`) and `j`, as long
as neither has exhausted its yields within the prefix, `j` has yielded at
most as often as `i`, and `i` at most once more than `j`. -/
theorem rrStreamAux_counts (fuel : Nat) :
    ∀ (q : List (Nat × Nat)), queueMeasure q ≤ fuel →
      (q.map Prod.fst).Nodup →
      ∀ (p i ri j rj : Nat), [(i, ri), (j, rj)].Sublist q →
        ((rrStreamAux fuel q).take p).count i < ri →
        ((rrStreamAux fuel q).take p).count j < rj →
        ((rrStreamAux fuel q).take p).count j ≤
            ((rrStreamAux fuel q).take p).count i ∧
          ((rrStreamAux fuel q).take p).count i ≤
            ((rrStreamAux fuel q).take p).count j + 1 := by
  induction fuel with
  | zero =>
      intro q hq hnd p i ri j rj hsub hci hcj
      simp [rrStreamAux]
  | succ fuel ih =>
      intro q hq hnd p i ri j rj hsub hci hcj
      rcases q with _ | ⟨⟨a, r⟩, q'⟩
      · simp at hsub
      rcases r with _ | r
      · -- the front generator is finished and gets dropped
        simp only [rrStreamAux] at hci hcj ⊢
        have hq' : queueMeasure q' ≤ fuel := by
          rw [queueMeasure_cons] at hq
          omega
        have hnd' : (q'.map Prod.fst).Nodup := by
          simp only [List.map_cons, List.nodup_cons] at hnd
          exact hnd.2
        cases hsub with
        | cons _ hsub' => exact ih q' hq' hnd' p i ri j rj hsub' hci hcj
        | cons₂ _ hsub' => exact absurd hci (Nat.not_lt_zero _)
      · -- the front generator yields and is requeued at the tail
        simp only [rrStreamAux] at hci hcj ⊢
        have hq' : queueMeasure (q' ++ [(a, r)]) ≤ fuel := by
          rw [queueMeasure_append_single]
          rw [queueMeasure_cons] at hq
          omega
        have hnd0 : a ∉ q'.map Prod.fst ∧ (q'.map Prod.fst).Nodup := by
          simpa using hnd
        have hnd' : ((q' ++ [(a, r)]).map Prod.fst).Nodup := by
          rw [List.map_append]
          exact ((List.perm_append_singleton a _).nodup_iff).2
            (by simpa using hnd)
        rcases p with _ | p
        · simp
        rw [List.take_succ_cons] at hci hcj ⊢
        cases hsub with
        | cons₂ _ hsub' =>
            -- the pair's first element is the front generator itself
            have hjmem : (j, rj) ∈ q' := List.singleton_sublist.1 hsub'
            have hjne : j ≠ i := by
              intro hji
              exact hnd0.1 (hji ▸ List.mem_map_of_mem Prod.fst hjmem)
            have hsub2 : [(j, rj), (i, r)].Sublist (q' ++ [(i, r)]) :=
              List.Sublist.append hsub' (List.Sublist.refl _)
            have eci :
                ((i :: (rrStreamAux fuel (q' ++ [(i, r)])).take p).count i) =
                  ((rrStreamAux fuel (q' ++ [(i, r)])).take p).count i + 1 := by
              simp [List.count_cons]
            have ecj :
                ((i :: (rrStreamAux fuel (q' ++ [(i, r)])).take p).count j) =
                  ((rrStreamAux fuel (q' ++ [(i, r)])).take p).count j := by
              simp [List.count_cons, hjne]
            rw [eci] at hci ⊢
            rw [ecj] at hcj ⊢
            have hIH := ih (q' ++ [(i, r)]) hq' hnd' p j rj i r hsub2 hcj
              (by omega)
            omega
        | cons _ hsub' =>
            -- both pair elements sit behind the front generator
            have himem : (i, ri) ∈ q' := hsub'.subset (List.mem_cons_self _ _)
            have hjmem : (j, rj) ∈ q' :=
              hsub'.subset (List.mem_cons_of_mem _ (List.mem_cons_self _ _))
            have hine : i ≠ a := by
              intro hia
              exact hnd0.1 (hia ▸ List.mem_map_of_mem Prod.fst himem)
            have hjne : j ≠ a := by
              intro hja
              exact hnd0.1 (hja ▸ List.mem_map_of_mem Prod.fst hjmem)
            have hsub2 : [(i, ri), (j, rj)].Sublist (q' ++ [(a, r)]) :=
              hsub'.trans (List.sublist_append_left q' [(a, r)])
            have eci :
                ((a :: (rrStreamAux fuel (q' ++ [(a, r)])).take p).count i) =
                  ((rrStreamAux fuel (q' ++ [(a, r)])).take p).count i := by
              simp [List.count_cons, hine]
            have ecj :
                ((a :: (rrStreamAux fuel (q' ++ [(a, r)])).take p).count j) =
                  ((rrStreamAux fuel (q' ++ [(a, r)])).take p).count j := by
              simp [List.count_cons, hjne]
            rw [eci] at hci ⊢
            rw [ecj] at hcj ⊢
            exact ih (q' ++ [(a, r)]) hq' hnd' p i ri j rj hsub2 hci hcj

/-- The wrapper's initial queue: one coroutine per root, in root order; root
`k` will yield `ns[k]` environments in total. -/
def initQueue (ns : List Nat) : List (Nat × Nat) :=
  (List.range ns.length).zip ns

/-- C3 counterexample: with two roots whose coroutines yield 1 and 3
environments, the first coroutine is pruned after its only yield and the
full stream is `[0, 1, 1, 1]`; at the 4-element prefix the counts are 1 and
3, which differ by more than one. -/
theorem spreadFirstN_not_round_robin_after_completion :
    rrStream (initQueue [1, 3]) = [0, 1, 1, 1] ∧
    ((rrStream (initQueue [1, 3])).take 4).count 0 + 1 <
      ((rrStream (initQueue [1, 3])).take 4).count 1 := by
  refine ⟨by decide, by decide⟩

/-- C3 amended: the spreading wrapper is round-robin among still-live
coroutines: across any prefix of the yield stream, for roots `i` (queued
before `j`) and `j` whose coroutines have not yet exhausted their yields
within that prefix, the yield counts differ by at most one (`j` trails `i`
by at most one).  Once a coroutine completes it is removed from rotation and
its count may fall arbitrarily far behind. -/
theorem spreadFirstN_round_robin_live (ns : List Nat) (p i ri j rj : Nat)
    (hsub : [(i, ri), (j, rj)].Sublist (initQueue ns))
    (hi : ((rrStream (initQueue ns)).take p).count i < ri)
    (hj : ((rrStream (initQueue ns)).take p).count j < rj) :
    ((rrStream (initQueue ns)).take p).count j ≤
        ((rrStream (initQueue ns)).take p).count i ∧
      ((rrStream (initQueue ns)).take p).count i ≤
        ((rrStream (initQueue ns)).take p).count j + 1 := by
  have hnd : ((initQueue ns).map Prod.fst).Nodup := by
    unfold initQueue
    rw [List.map_fst_zip _ _ (by simp)]
    exact List.nodup_range _
  exact rrStreamAux_counts (queueMeasure (initQueue ns)) (initQueue ns)
    (Nat.le_refl _) hnd p i ri j rj hsub hi hj

/-- Witness for the amended C3 theorem: two roots of 2 yields each, prefix
of length 2. -/
theorem spreadFirstN_round_robin_live_witness :
    ((rrStream (initQueue [2, 2])).take 2).count 1 ≤
        ((rrStream (initQueue [2, 2])).take 2).count 0 ∧
      ((rrStream (initQueue [2, 2])).take 2).count 0 ≤
        ((rrStream (initQueue [2, 2])).take 2).count 1 + 1 :=
  spreadFirstN_round_robin_live [2, 2] 2 0 2 1 2
    (by rw [show initQueue [2, 2] = [(0, 2), (1, 2)] from by decide])
    (by decide) (by decide)

/-- `semver.versionMutators`: the registered mutators in precedence order. -/
def versionMutators : List MutatorKind := [.major, .minor]

/-- `semver.lookup[type].undo`: both registered mutators inherit the shared
`DependencySemverMutator.undo`; an unregistered type indexes `undefined`
(a crash, modelled as `none`). -/
def lookupUndoByType (t : String) :
    Option (Dependency → Mutation → Dependency) :=
  if t = "decrement_semver_major" ∨ t = "decrement_semver_minor" then
    some undoMutation
  else none

/-- `index` after the lateral move `if (semver.versionMutators[mutatorIndex
+ 1]) mutatorIndex++; else { mutatorIndex = 0; index++; }`. -/
def lateralIndex (index mutatorIndex : Nat) : Nat :=
  match versionMutators.get? (mutatorIndex + 1) with
  | some _ => index
  | none => index + 1

/-- `mutatorIndex` after the same lateral move. -/
def lateralMutatorIndex (mutatorIndex : Nat) : Nat :=
  match versionMutators.get? (mutatorIndex + 1) with
  | some _ => mutatorIndex + 1
  | none => 0

/-- The mutable state of one `IDDFS` generator activation (mutation module,
lines 205-380): the loop-control counters plus the two environment fields
the search mutates in place.  The mutation stack is kept head-first: the
head of `mutations` is the top of the JS array (its last element). -/
structure IDDFSState where
  currentDepth : Nat
  depth : Nat
  totalCount : Nat
  depthCount : Nat
  index : Nat
  mutatorIndex : Nat
  dependencies : List Dependency
  mutations : List Mutation
deriving DecidableEq, Repr

/-- The effect of one iteration of the `while (totalCount < n)` loop body:
proceed silently, yield the environment, break out of IDDFS (a full depth
pass generated nothing), or hit a JS runtime error (popping an empty stack
or indexing a missing mutator — unreachable from a start state). -/
inductive IDDFSStepResult where
  | advance (s : IDDFSState)
  | yielded (s : IDDFSState)
  | halt (s : IDDFSState)
  | stuck
deriving DecidableEq, Repr

/-- One iteration of the `IDDFS` loop body (mutation module, lines 232-378).
`avail` supplies `getAvailablePackageVersions` per package name. -/
def iddfsStep (avail : String → List String) (s : IDDFSState) :
    IDDFSStepResult :=
  match s.dependencies.get? s.index with
  | none =>
      if s.currentDepth > 0 then
        match s.mutations with
        | [] => .stuck
        | m :: rest =>
            match m.iddfs with
            | none => .stuck
            | some info =>
                match lookupUndoByType m.type with
                | none => .stuck
                | some undoFn =>
                    match s.dependencies.get? info.index with
                    | none => .stuck
                    | some dcur =>
                        .advance
                          { s with
                            currentDepth := s.currentDepth - 1,
                            mutations := rest,
                            dependencies :=
                              s.dependencies.set info.index (undoFn dcur m),
                            index := lateralIndex info.index info.mutatorIndex,
                            mutatorIndex := lateralMutatorIndex info.mutatorIndex }
      else
        if s.depthCount = 0 then .halt s
        else
          .advance
            { s with
              currentDepth := 0, depth := s.depth + 1, depthCount := 0,
              mutatorIndex := 0, index := 0 }
  | some dependency =>
      match versionMutators.get? s.mutatorIndex with
      | none => .stuck
      | some mutatorKind =>
          match applyMutator mutatorKind (avail dependency.name) dependency with
          | none =>
              .advance
                { s with
                  index := lateralIndex s.index s.mutatorIndex,
                  mutatorIndex := lateralMutatorIndex s.mutatorIndex }
          | some mr =>
              if s.currentDepth + 1 = s.depth then
                .yielded
                  { s with
                    totalCount := s.totalCount + 1,
                    depthCount := s.depthCount + 1,
                    dependencies :=
                      (s.dependencies.set s.index mr.mutant).set s.index
                        dependency,
                    index := lateralIndex s.index s.mutatorIndex,
                    mutatorIndex := lateralMutatorIndex s.mutatorIndex }
              else
                .advance
                  { s with
                    currentDepth := s.currentDepth + 1,
                    dependencies := s.dependencies.set s.index mr.mutant,
                    mutations :=
                      { mr.mutation with
                        iddfs := some ⟨s.index, s.mutatorIndex⟩ } ::
                        s.mutations }

/-- How an `IDDFS` activation ends: the zero-yield break, the budget check
`totalCount < n` failing, a JS runtime error, or fuel running out (the JS
loop has no fuel; theorems quantify over any sufficient fuel). -/
inductive IDDFSOutcome where
  | exhausted (s : IDDFSState)
  | budget (s : IDDFSState)
  | stuck
  | fuelOut
deriving DecidableEq, Repr

/-- Drive the `IDDFS` loop: re-check the budget at the top of each
iteration, then take one step. -/
def iddfsRun (avail : String → List String) (n : Nat) :
    Nat → IDDFSState → IDDFSOutcome
  | 0, _ => .fuelOut
  | fuel + 1, s =>
      if s.totalCount < n then
        match iddfsStep avail s with
        | .advance s' => iddfsRun avail n fuel s'
        | .yielded s' => iddfsRun avail n fuel s'
        | .halt s' => .exhausted s'
        | .stuck => .stuck
      else .budget s

/-- The generator's state when `IDDFS(environment, n)` enters its loop:
depth 1, all counters zero, operating on the environment's `dependencies`
and `metadata.mutations` in place (the root environment has already been
yielded, which touches neither field). -/
def iddfsInitState (deps : List Dependency) (muts : List Mutation) :
    IDDFSState :=
  { currentDepth := 0, depth := 1, totalCount := 0, depthCount := 0,
    index := 0, mutatorIndex := 0, dependencies := deps, mutations := muts }

/-- Undo a stack of applied mutations (head = most recent) against a
dependency list, mirroring the backtracking arm of `iddfsStep`; `none`
models a crash (missing bookkeeping, unregistered type, bad index). -/
def undoChain : List Mutation → List Dependency → Option (List Dependency)
  | [], ds => some ds
  | m :: rest, ds =>
      match m.iddfs with
      | none => none
      | some info =>
          match lookupUndoByType m.type with
          | none => none
          | some undoFn =>
              match ds.get? info.index with
              | none => none
              | some dcur => undoChain rest (ds.set info.index (undoFn dcur m))

/-- The IDDFS in-place mutation invariant: the mutation stack extends the
initial one by exactly `currentDepth` entries, and undoing that extension
restores the initial dependencies. -/
def IDDFSInv (deps0 : List Dependency) (muts0 : List Mutation)
    (s : IDDFSState) : Prop :=
  ∃ applied : List Mutation,
    s.mutations = applied ++ muts0 ∧
    applied.length = s.currentDepth ∧
    undoChain applied s.dependencies = some deps0

/-- Reading back an in-bounds write. -/
theorem list_get?_set_self {α : Type} (l : List α) (i : Nat) (a : α)
    (h : i < l.length) : (l.set i a).get? i = some a := by
  induction l generalizing i with
  | nil => simp at h
  | cons b l ih =>
      rcases i with - | i
      · rfl
      · simpa using ih i (by simpa using h)

/-- Writing back the element already present is the identity. -/
theorem list_set_get?_self {α : Type} {l : List α} {i : Nat} {a : α}
    (h : l.get? i = some a) : l.set i a = l := by
  induction l generalizing i with
  | nil => simp at h
  | cons b l ih =>
      rcases i with - | i
      · simp only [List.get?] at h
        injection h with h
        rw [h]
        rfl
      · simp only [List.get?] at h
        simp [ih h]

/-- A non-halting, non-stuck IDDFS step preserves the in-place mutation
invariant. -/
theorem iddfsStep_inv (avail : String → List String)
    (deps0 : List Dependency) (muts0 : List Mutation) (s s' : IDDFSState)
    (hInv : IDDFSInv deps0 muts0 s)
    (h : iddfsStep avail s = .advance s' ∨ iddfsStep avail s = .yielded s') :
    IDDFSInv deps0 muts0 s' := by
  obtain ⟨applied, hmuts, hlen, hchain⟩ := hInv
  unfold iddfsStep at h
  rcases hdep : s.dependencies.get? s.index with - | dependency
  · simp only [hdep] at h
    by_cases hcd : s.currentDepth > 0
    · rw [if_pos hcd] at h
      rcases applied with - | ⟨m, applRest⟩
      · simp at hlen
        omega
      have hsm : s.mutations = m :: (applRest ++ muts0) := by simpa using hmuts
      simp only [hsm] at h
      unfold undoChain at hchain
      rcases hiddfs : m.iddfs with - | info
      · simp only [hiddfs] at hchain
        exact Option.noConfusion hchain
      simp only [hiddfs] at hchain h
      rcases hundo : lookupUndoByType m.type with - | undoFn
      · simp only [hundo] at hchain
        exact Option.noConfusion hchain
      simp only [hundo] at hchain h
      rcases hget : s.dependencies.get? info.index with - | dcur
      · simp only [hget] at hchain
        exact Option.noConfusion hchain
      simp only [hget] at hchain h
      rcases h with h | h
      · injection h with h
        subst h
        refine ⟨applRest, rfl, ?_, hchain⟩
        simp only [List.length_cons] at hlen
        simp only []
        omega
      · exact IDDFSStepResult.noConfusion h
    · rw [if_neg hcd] at h
      by_cases hdc : s.depthCount = 0
      · rw [if_pos hdc] at h
        rcases h with h | h <;> exact IDDFSStepResult.noConfusion h
      · rw [if_neg hdc] at h
        rcases h with h | h
        · injection h with h
          subst h
          refine ⟨applied, hmuts, ?_, hchain⟩
          simp only []
          omega
        · exact IDDFSStepResult.noConfusion h
  · simp only [hdep] at h
    rcases hmk : versionMutators.get? s.mutatorIndex with - | mk
    · simp only [hmk] at h
      rcases h with h | h <;> exact IDDFSStepResult.noConfusion h
    simp only [hmk] at h
    rcases happ : applyMutator mk (avail dependency.name) dependency with - | mr
    · simp only [happ] at h
      rcases h with h | h
      · injection h with h
        subst h
        exact ⟨applied, hmuts, hlen, hchain⟩
      · exact IDDFSStepResult.noConfusion h
    simp only [happ] at h
    obtain ⟨hfrom, hmut, -, htype⟩ := applyMutator_shape mk _ dependency mr happ
    obtain ⟨hidx, -⟩ := List.get?_eq_some.1 hdep
    have hundo2 :
        undoMutation mr.mutant
            { mr.mutation with iddfs := some ⟨s.index, s.mutatorIndex⟩ } =
          dependency := by
      obtain ⟨dn, dv, dsys⟩ := dependency
      simp only [undoMutation, hmut]
      simp_all
    have hsetself : s.dependencies.set s.index dependency = s.dependencies :=
      list_set_get?_self hdep
    by_cases hd : s.currentDepth + 1 = s.depth
    · rw [if_pos hd] at h
      rcases h with h | h
      · exact IDDFSStepResult.noConfusion h
      · injection h with h
        subst h
        refine ⟨applied, hmuts, hlen, ?_⟩
        simp only [List.set_set, hsetself]
        exact hchain
    · rw [if_neg hd] at h
      rcases h with h | h
      · injection h with h
        subst h
        refine ⟨{ mr.mutation with iddfs := some ⟨s.index, s.mutatorIndex⟩ } ::
          applied, by simpa using hmuts, by simpa using hlen, ?_⟩
        have hlut :
            lookupUndoByType
                ({ mr.mutation with
                  iddfs := some ⟨s.index, s.mutatorIndex⟩ } : Mutation).type =
              some undoMutation := by
          rcases htype with ht | ht <;> simp [lookupUndoByType, ht]
        have hget2 :
            ((s.dependencies.set s.index mr.mutant).get? s.index) =
              some mr.mutant :=
          list_get?_set_self _ _ _ (by simpa using hidx)
        unfold undoChain
        simp only [hlut, hget2, hundo2, List.set_set, hsetself]
        exact hchain
      · exact IDDFSStepResult.noConfusion h

/-- On the zero-yield break the invariant collapses: the state is restored. -/
theorem iddfsStep_halt_restores (avail : String → List String)
    (deps0 : List Dependency) (muts0 : List Mutation) (s s' : IDDFSState)
    (hInv : IDDFSInv deps0 muts0 s) (h : iddfsStep avail s = .halt s') :
    s'.dependencies = deps0 ∧ s'.mutations = muts0 := by
  obtain ⟨applied, hmuts, hlen, hchain⟩ := hInv
  unfold iddfsStep at h
  rcases hdep : s.dependencies.get? s.index with - | dependency
  · simp only [hdep] at h
    by_cases hcd : s.currentDepth > 0
    · rw [if_pos hcd] at h
      rcases applied with - | ⟨m, applRest⟩
      · simp at hlen
        omega
      have hsm : s.mutations = m :: (applRest ++ muts0) := by simpa using hmuts
      simp only [hsm] at h
      rcases hiddfs : m.iddfs with - | info <;> simp only [hiddfs] at h
      · exact IDDFSStepResult.noConfusion h
      rcases hundo : lookupUndoByType m.type with - | undoFn <;>
        simp only [hundo] at h
      · exact IDDFSStepResult.noConfusion h
      rcases hget : s.dependencies.get? info.index with - | dcur <;>
        simp only [hget] at h
      · exact IDDFSStepResult.noConfusion h
      exact IDDFSStepResult.noConfusion h
    · rw [if_neg hcd] at h
      by_cases hdc : s.depthCount = 0
      · rw [if_pos hdc] at h
        injection h with h
        subst h
        have hap : applied = [] := by
          rcases applied with - | _
          · rfl
          · simp at hlen
            omega
        subst hap
        simp only [undoChain] at hchain
        injection hchain with hchain
        simpa [hchain] using hmuts
      · rw [if_neg hdc] at h
        exact IDDFSStepResult.noConfusion h
  · simp only [hdep] at h
    rcases hmk : versionMutators.get? s.mutatorIndex with - | mk <;>
      simp only [hmk] at h
    · exact IDDFSStepResult.noConfusion h
    rcases happ : applyMutator mk (avail dependency.name) dependency with - | mr <;>
      simp only [happ] at h
    · exact IDDFSStepResult.noConfusion h
    by_cases hd : s.currentDepth + 1 = s.depth
    · rw [if_pos hd] at h
      exact IDDFSStepResult.noConfusion h
    · rw [if_neg hd] at h
      exact IDDFSStepResult.noConfusion h

/-- Exhaustion of the run restores the initial fields, given the invariant. -/
theorem iddfsRun_exhausted_restores (avail : String → List String) (n : Nat)
    (deps0 : List Dependency) (muts0 : List Mutation) :
    ∀ (fuel : Nat) (s s' : IDDFSState), IDDFSInv deps0 muts0 s →
      iddfsRun avail n fuel s = .exhausted s' →
      s'.dependencies = deps0 ∧ s'.mutations = muts0 := by
  intro fuel
  induction fuel with
  | zero =>
      intro s s' hInv h
      exact IDDFSOutcome.noConfusion h
  | succ fuel ih =>
      intro s s' hInv h
      unfold iddfsRun at h
      by_cases hb : s.totalCount < n
      · rw [if_pos hb] at h
        rcases hstep : iddfsStep avail s with s2 | s2 | s2 | - <;>
          simp only [hstep] at h
        · exact ih s2 s' (iddfsStep_inv avail deps0 muts0 s s2 hInv
            (Or.inl hstep)) h
        · exact ih s2 s' (iddfsStep_inv avail deps0 muts0 s s2 hInv
            (Or.inr hstep)) h
        · injection h with h
          subst h
          exact iddfsStep_halt_restores avail deps0 muts0 s s2 hInv hstep
        · exact IDDFSOutcome.noConfusion h
      · rw [if_neg hb] at h
        exact IDDFSOutcome.noConfusion h

/-- C9: when the IDDFS generator terminates because a full depth pass
produced zero new environments (the `break`, as opposed to the budget
check), the environment it mutated in place has been restored: the
dependency list and the mutation stack are byte for byte what they were at
generator start. -/
theorem iddfs_break_restores_environment (avail : String → List String)
    (n fuel : Nat) (deps0 : List Dependency) (muts0 : List Mutation)
    (s' : IDDFSState)
    (h : iddfsRun avail n fuel (iddfsInitState deps0 muts0) = .exhausted s') :
    s'.dependencies = deps0 ∧ s'.mutations = muts0 :=
  iddfsRun_exhausted_restores avail n deps0 muts0 fuel
    (iddfsInitState deps0 muts0) s' ⟨[], rfl, rfl, rfl⟩ h

/-- Witness for C9: with no versions available every `apply` fails, the
depth-1 pass yields nothing, and the generator breaks with the environment
untouched. -/
theorem iddfs_break_restores_environment_witness :
    iddfsRun (fun _ => []) 500 10 (iddfsInitState [⟨"lib", "1.0.0", "pip"⟩] []) =
      .exhausted
        { currentDepth := 0, depth := 1, totalCount := 0, depthCount := 0,
          index := 1, mutatorIndex := 0,
          dependencies := [⟨"lib", "1.0.0", "pip"⟩], mutations := [] } ∧
    ({ currentDepth := 0, depth := 1, totalCount := 0, depthCount := 0,
       index := 1, mutatorIndex := 0,
       dependencies := [⟨"lib", "1.0.0", "pip"⟩],
       mutations := [] } : IDDFSState).dependencies =
        [⟨"lib", "1.0.0", "pip"⟩] ∧
    ({ currentDepth := 0, depth := 1, totalCount := 0, depthCount := 0,
       index := 1, mutatorIndex := 0,
       dependencies := [⟨"lib", "1.0.0", "pip"⟩],
       mutations := [] } : IDDFSState).mutations = [] := by
  have hrun : iddfsRun (fun _ => []) 500 10
      (iddfsInitState [⟨"lib", "1.0.0", "pip"⟩] []) =
      .exhausted
        { currentDepth := 0, depth := 1, totalCount := 0, depthCount := 0,
          index := 1, mutatorIndex := 0,
          dependencies := [⟨"lib", "1.0.0", "pip"⟩], mutations := [] } := by
    decide
  refine ⟨hrun, ?_, ?_⟩
  · exact (iddfs_break_restores_environment (fun _ => []) 500 10
      [⟨"lib", "1.0.0", "pip"⟩] [] _ hrun).1
  · exact (iddfs_break_restores_environment (fun _ => []) 500 10
      [⟨"lib", "1.0.0", "pip"⟩] [] _ hrun).2
